import Mathlib

/-!
Shallow embedding of `ext/discordrb/parse_mentions/parse_mentions.c`.

The C code scans a NUL-terminated character buffer for `<...>` mention
tokens and builds a singly linked list of `(type, id)` records.  We model
the buffer contents (the characters strictly before the terminator, which
can never include NUL) as a `List Char`, pointers into the buffer as
natural-number indices, and the linked list built by `add_mention` as a
Lean list to which records are appended at the tail.

One behavior of the C requires an explicit abnormal outcome: in
`find_mention`, when `find_closest_lab` returns `NULL`, the code still
calls `add_mention(mentions, lab, rab)` with `lab == NULL`; `new_mention`
then computes `rab - lab` on the null pointer and copies from `lab + 1`,
which is undefined behavior (in practice a crash).  We model that outcome
as `ScanStep.crashed`, and a whole scan that reaches it as `none`.
-/

namespace ParseMentions

/-- The NUL terminator of a C string. -/
def nulChar : Char := Char.ofNat 0

/-- Reading a character from a NUL-terminated buffer: any position at or
past the end of the modelled contents reads the terminator. -/
def char_at (s : List Char) (i : Nat) : Char := s.getD i nulChar

/-- Loop body of `ensure_int_str`: walk the string keeping a flag that is
cleared whenever a character is above `'9'` or below `'0'`. -/
def ensure_int_str_loop : Bool → List Char → Bool
  | flag, [] => flag
  | flag, c :: rest => ensure_int_str_loop (if c > '9' ∨ c < '0' then false else flag) rest

/-- `ensure_int_str` from the C source: returns `true` when every
character of the string is an ASCII decimal digit. -/
def ensure_int_str (s : List Char) : Bool := ensure_int_str_loop true s

/-- A character is an ASCII decimal digit `'0'`–`'9'`. -/
def is_ascii_digit (c : Char) : Bool := decide ('0' ≤ c ∧ c ≤ '9')

/-- The `MentionType` enum, minus the `Error` tag: an `Error` node is
never linked into the result list (`add_mention` drops it), so records
carry only the four real kinds. -/
inductive MentionType where
  | User
  | Role
  | Channel
  | Emoji
deriving DecidableEq, Repr

/-- A `MentionNode` payload: the kind together with the extracted
identifier string. -/
structure MentionRecord where
  kind : MentionType
  id : List Char
deriving DecidableEq, Repr

/-- `new_mention` from the C source, acting on the interior text of a
token (the characters strictly between `<` and `>`).  Classification
failure (`type == Error`) is `none`; `add_mention` drops such nodes. -/
def new_mention (inner : List Char) : Option MentionRecord :=
  if char_at inner 0 = '@' then
    if char_at inner 1 = '!' then
      if ensure_int_str (inner.drop 2) then some ⟨MentionType.User, inner.drop 2⟩ else none
    else if char_at inner 1 = '&' then
      if ensure_int_str (inner.drop 2) then some ⟨MentionType.Role, inner.drop 2⟩ else none
    else
      if ensure_int_str (inner.drop 1) then some ⟨MentionType.User, inner.drop 1⟩ else none
  else if char_at inner 0 = '#' then
    if ensure_int_str (inner.drop 1) then some ⟨MentionType.Channel, inner.drop 1⟩ else none
  else if char_at inner 0 = 'a' ∨ char_at inner 0 = ':' then
    some ⟨MentionType.Emoji, inner⟩
  else
    none

/-- `add_mention` from the C source: walk to the tail of the list and
link the new node there, unless classification failed. -/
def add_mention (acc : List MentionRecord) (found : Option MentionRecord) : List MentionRecord :=
  acc ++ found.toList

/-- `strchr(src, '>')` on the modelled buffer: index of the first `'>'`. -/
def strchr_gt : List Char → Option Nat
  | [] => none
  | c :: rest => if c = '>' then some 0 else (strchr_gt rest).map (· + 1)

/-- `find_closest_lab` from the C source: starting at index `i` (the
position of the `'>'`), walk backward while the character is not `'<'`
and the pointer is still above `src`; if the walk reaches the start
without finding `'<'`, return `NULL` (here `none`). -/
def find_closest_lab (src : List Char) : Nat → Option Nat
  | 0 => if char_at src 0 = '<' then some 0 else none
  | i + 1 => if char_at src (i + 1) = '<' then some (i + 1) else find_closest_lab src i

/-- The interior of a token: the characters strictly between the `<` at
index `lab` and the `>` at index `rab` (what `new_mention` copies with
`strncpy(inner_ptr, lab + 1, (rab - lab) - 1)`). -/
def inner_of (src : List Char) (lab rab : Nat) : List Char :=
  (src.drop (lab + 1)).take (rab - lab - 1)

/-- Outcome of one `find_mention` step. -/
inductive ScanStep where
  | finished
  | crashed
  | advanced (found : Option MentionRecord) (rest : List Char)
deriving DecidableEq, Repr

/-- `find_mention` from the C source.  `finished` is the `rab == NULL`
early return; `crashed` is the path where `find_closest_lab` returned
`NULL` and the C nevertheless calls `add_mention` with a null `lab`
(undefined behavior); `advanced` carries the classification result of
the token's interior and the buffer suffix just past the `'>'`. -/
def find_mention (src : List Char) : ScanStep :=
  match strchr_gt src with
  | none => ScanStep.finished
  | some rab =>
    match find_closest_lab src rab with
    | none => ScanStep.crashed
    | some lab => ScanStep.advanced (new_mention (inner_of src lab rab)) (src.drop (rab + 1))

/-- The `find_mentions` loop, with explicit fuel so that the definition
is structural and computes by kernel reduction.  Every `advanced` step
consumes at least the characters up to and including a `'>'`, so
`src.length + 1` fuel always suffices (`find_mentions_fuel_irrel`
below); `none` is the crashed outcome. -/
def find_mentions_fuel : Nat → List Char → List MentionRecord → Option (List MentionRecord)
  | 0, _, _ => none
  | f + 1, src, acc =>
    match find_mention src with
    | ScanStep.finished => some acc
    | ScanStep.crashed => none
    | ScanStep.advanced found rest => find_mentions_fuel f rest (add_mention acc found)

/-- `find_mentions` from the C source: run the loop from an empty
accumulator (the sentinel head node is not part of the result). -/
def find_mentions (src : List Char) : Option (List MentionRecord) :=
  find_mentions_fuel (src.length + 1) src []

/-- The characters of a string literal, for concrete test inputs. -/
def chars (s : String) : List Char := s.data

/-- Re-serialization marker for each kind: the prefix that `new_mention`
strips (empty for `Emoji`, whose identifier is the verbatim interior). -/
def kind_marker : MentionType → List Char
  | MentionType.User => ['@']
  | MentionType.Role => ['@', '&']
  | MentionType.Channel => ['#']
  | MentionType.Emoji => []

/-- Re-serialize one record as a `<prefix + id>` token. -/
def serialize_record (r : MentionRecord) : List Char :=
  '<' :: (kind_marker r.kind ++ r.id) ++ ['>']

/-- Concatenation of the re-serialized tokens of a record list. -/
def serialize_all : List MentionRecord → List Char
  | [] => []
  | r :: rs => serialize_record r ++ serialize_all rs

/-- The flag of `ensure_int_str`, once cleared, stays cleared. -/
theorem ensure_int_str_loop_false (s : List Char) : ensure_int_str_loop false s = false := by
  induction s with
  | nil => rfl
  | cons c rest ih => simpa [ensure_int_str_loop] using ih

/-- `ensure_int_str` accepts exactly the strings made of ASCII digits. -/
theorem ensure_int_str_eq_all (s : List Char) : ensure_int_str s = s.all is_ascii_digit := by
  induction s with
  | nil => rfl
  | cons c rest ih =>
    show ensure_int_str_loop (if c > '9' ∨ c < '0' then false else true) rest = _
    by_cases h : c > '9' ∨ c < '0'
    · have hd : is_ascii_digit c = false := by
        rcases h with h | h
        · simp [is_ascii_digit, not_le.mpr h]
        · simp [is_ascii_digit, not_le.mpr h]
      rw [if_pos h, ensure_int_str_loop_false, List.all_cons, hd, Bool.false_and]
    · have hd : is_ascii_digit c = true := by
        push_neg at h
        simp only [is_ascii_digit, decide_eq_true_eq]
        exact ⟨h.2, h.1⟩
      rw [if_neg h, List.all_cons, hd, Bool.true_and]
      exact ih

/-- An ASCII digit is neither delimiter character. -/
theorem digit_ne_delims {c : Char} (h : is_ascii_digit c = true) : c ≠ '<' ∧ c ≠ '>' := by
  constructor
  · rintro rfl; exact absurd h (by decide)
  · rintro rfl; exact absurd h (by decide)

/-- An ASCII digit is neither of the sub-markers of the `'@'` branch. -/
theorem digit_ne_markers {c : Char} (h : is_ascii_digit c = true) : c ≠ '!' ∧ c ≠ '&' := by
  constructor
  · rintro rfl; exact absurd h (by decide)
  · rintro rfl; exact absurd h (by decide)

/-- An index returned by `strchr_gt` is inside the buffer. -/
theorem strchr_gt_lt_length {s : List Char} {i : Nat} (h : strchr_gt s = some i) :
    i < s.length := by
  induction s generalizing i with
  | nil => exact absurd h (by simp [strchr_gt])
  | cons c rest ih =>
    simp only [strchr_gt] at h
    by_cases hc : c = '>'
    · rw [if_pos hc] at h
      injection h with h
      simp [← h]
    · rw [if_neg hc] at h
      rcases Option.map_eq_some'.mp h with ⟨j, hj, hji⟩
      have := ih hj
      simp only [List.length_cons]
      omega

/-- The index returned by `strchr_gt` holds a `'>'`. -/
theorem strchr_gt_char {s : List Char} {i : Nat} (h : strchr_gt s = some i) :
    char_at s i = '>' := by
  induction s generalizing i with
  | nil => exact absurd h (by simp [strchr_gt])
  | cons c rest ih =>
    simp only [strchr_gt] at h
    by_cases hc : c = '>'
    · rw [if_pos hc] at h
      injection h with h
      simp [← h, char_at, hc]
    · rw [if_neg hc] at h
      rcases Option.map_eq_some'.mp h with ⟨j, hj, hji⟩
      rw [← hji]
      simpa [char_at] using ih hj

/-- `strchr_gt` finds the first `'>'`: nothing before it is a `'>'`. -/
theorem strchr_gt_first {s : List Char} {i : Nat} (h : strchr_gt s = some i) :
    ∀ j, j < i → char_at s j ≠ '>' := by
  induction s generalizing i with
  | nil => exact absurd h (by simp [strchr_gt])
  | cons c rest ih =>
    simp only [strchr_gt] at h
    by_cases hc : c = '>'
    · rw [if_pos hc] at h
      injection h with h
      intro j hj
      omega
    · rw [if_neg hc] at h
      rcases Option.map_eq_some'.mp h with ⟨j, hj, hji⟩
      intro k hk
      cases k with
      | zero => simpa [char_at] using hc
      | succ k =>
        have : k < j := by omega
        simpa [char_at] using ih hj k this

/-- An index returned by `find_closest_lab` is at most the start index. -/
theorem find_closest_lab_le {s : List Char} {r l : Nat}
    (h : find_closest_lab s r = some l) : l ≤ r := by
  induction r with
  | zero =>
    simp only [find_closest_lab] at h
    split at h
    · injection h with h; omega
    · exact absurd h (by simp)
  | succ i ih =>
    simp only [find_closest_lab] at h
    split at h
    · injection h with h; omega
    · exact (ih h).trans (by omega)

/-- The index returned by `find_closest_lab` holds a `'<'`. -/
theorem find_closest_lab_char {s : List Char} {r l : Nat}
    (h : find_closest_lab s r = some l) : char_at s l = '<' := by
  induction r with
  | zero =>
    simp only [find_closest_lab] at h
    split at h
    · rename_i hc; injection h with h; rwa [← h]
    · exact absurd h (by simp)
  | succ i ih =>
    simp only [find_closest_lab] at h
    split at h
    · rename_i hc; injection h with h; rwa [← h]
    · exact ih h

/-- `find_closest_lab` finds the closest `'<'`: nothing strictly between
its result and the start index is a `'<'`. -/
theorem find_closest_lab_after {s : List Char} {r l : Nat}
    (h : find_closest_lab s r = some l) : ∀ j, l < j → j ≤ r → char_at s j ≠ '<' := by
  induction r with
  | zero =>
    simp only [find_closest_lab] at h
    split at h
    · injection h with h; intro j h1 h2; omega
    · exact absurd h (by simp)
  | succ i ih =>
    simp only [find_closest_lab] at h
    split at h
    · rename_i hc; injection h with h; intro j h1 h2; omega
    · rename_i hc
      intro j h1 h2
      rcases Nat.lt_or_ge j (i + 1) with hj | hj
      · exact ih h j h1 (by omega)
      · have : j = i + 1 := by omega
        rw [this]; exact hc

/-- Inversion of an `advanced` step of `find_mention`. -/
theorem find_mention_advanced {src : List Char} {found : Option MentionRecord}
    {rest : List Char} (h : find_mention src = ScanStep.advanced found rest) :
    ∃ rab lab, strchr_gt src = some rab ∧ find_closest_lab src rab = some lab ∧
      found = new_mention (inner_of src lab rab) ∧ rest = src.drop (rab + 1) := by
  unfold find_mention at h
  split at h
  · exact ScanStep.noConfusion h
  · rename_i rab hrab
    split at h
    · exact ScanStep.noConfusion h
    · rename_i lab hlab
      cases h
      exact ⟨rab, lab, hrab, hlab, rfl, rfl⟩

/-- Every `advanced` step strictly shrinks the remaining buffer. -/
theorem find_mention_advanced_length {src : List Char} {found : Option MentionRecord}
    {rest : List Char} (h : find_mention src = ScanStep.advanced found rest) :
    rest.length < src.length := by
  obtain ⟨rab, lab, hrab, hlab, hf, hrest⟩ := find_mention_advanced h
  have hlt := strchr_gt_lt_length hrab
  rw [hrest, List.length_drop]
  omega

/-- Any fuel above the buffer length gives the same scan result. -/
theorem find_mentions_fuel_irrel : ∀ f₁ f₂ src acc, src.length < f₁ → src.length < f₂ →
    find_mentions_fuel f₁ src acc = find_mentions_fuel f₂ src acc := by
  intro f₁
  induction f₁ with
  | zero => intro f₂ src acc h1 h2; omega
  | succ a ih =>
    intro f₂ src acc h1 h2
    cases f₂ with
    | zero => omega
    | succ b =>
      simp only [find_mentions_fuel]
      cases hm : find_mention src with
      | finished => rfl
      | crashed => rfl
      | advanced found rest =>
        have hlen := find_mention_advanced_length hm
        exact ih b rest (add_mention acc found) (by omega) (by omega)

/-- The accumulator only ever grows at the tail: running the loop with
accumulator `acc` prepends `acc` to the result of running it empty. -/
theorem find_mentions_fuel_append : ∀ f src acc,
    find_mentions_fuel f src acc =
      (find_mentions_fuel f src []).map (fun rs => acc ++ rs) := by
  intro f
  induction f with
  | zero => intro src acc; rfl
  | succ a ih =>
    intro src acc
    simp only [find_mentions_fuel]
    cases hm : find_mention src with
    | finished => simp
    | crashed => rfl
    | advanced found rest =>
      show find_mentions_fuel a rest (add_mention acc found) =
        Option.map (fun rs => acc ++ rs) (find_mentions_fuel a rest (add_mention [] found))
      rw [ih rest (add_mention acc found), ih rest (add_mention [] found)]
      cases find_mentions_fuel a rest [] with
      | none => rfl
      | some rs => simp [add_mention, List.append_assoc]

/-- The interior handed to `new_mention` by the scanner lies strictly
between the closest `'<'` and the first `'>'`, so it contains neither
delimiter. -/
theorem inner_no_delims {src : List Char} {rab lab : Nat}
    (hrab : strchr_gt src = some rab) (hlab : find_closest_lab src rab = some lab) :
    ∀ c ∈ inner_of src lab rab, c ≠ '<' ∧ c ≠ '>' := by
  have hle := find_closest_lab_le hlab
  have hlabc := find_closest_lab_char hlab
  have hrabc := strchr_gt_char hrab
  have hrlen := strchr_gt_lt_length hrab
  have hlt : lab < rab := by
    rcases Nat.lt_or_ge lab rab with h | h
    · exact h
    · exfalso
      have heq : lab = rab := by omega
      rw [heq, hrabc] at hlabc
      exact absurd hlabc (by decide)
  intro c hc
  rw [inner_of, List.mem_iff_getElem] at hc
  obtain ⟨i, hi, hgi⟩ := hc
  have hi' : i < rab - lab - 1 := by
    simp only [List.length_take, List.length_drop] at hi
    omega
  have hidx : lab + 1 + i < src.length := by omega
  simp only [List.getElem_take, List.getElem_drop] at hgi
  have hchar : char_at src (lab + 1 + i) = c := by
    rw [char_at, List.getD_eq_getElem src nulChar hidx]
    exact hgi
  have h1 : char_at src (lab + 1 + i) ≠ '<' :=
    find_closest_lab_after hlab (lab + 1 + i) (by omega) (by omega)
  have h2 : char_at src (lab + 1 + i) ≠ '>' :=
    strchr_gt_first hrab (lab + 1 + i) (by omega)
  rw [hchar] at h1 h2
  exact ⟨h1, h2⟩

/-- `strchr_gt` on a buffer whose first `'>'` sits right after a clean
run of characters. -/
theorem strchr_gt_append {l : List Char} (r : List Char) (h : ∀ c ∈ l, c ≠ '>') :
    strchr_gt (l ++ '>' :: r) = some l.length := by
  induction l with
  | nil => simp [strchr_gt]
  | cons c t ih =>
    have hc : c ≠ '>' := h c (by simp)
    have ht := ih (fun c hc => h c (by simp [hc]))
    show (if c = '>' then some 0 else (strchr_gt (t ++ '>' :: r)).map (· + 1)) =
      some (c :: t).length
    rw [if_neg hc, ht]
    simp

/-- `find_closest_lab` returns index `0` when the buffer starts with
`'<'` and no later position in the window holds one. -/
theorem find_closest_lab_zero {s : List Char} (h0 : char_at s 0 = '<') :
    ∀ r, (∀ j, 1 ≤ j → j ≤ r → char_at s j ≠ '<') → find_closest_lab s r = some 0 := by
  intro r
  induction r with
  | zero => intro _; simp [find_closest_lab, h0]
  | succ i ih =>
    intro h
    have hne : char_at s (i + 1) ≠ '<' := h (i + 1) (by omega) (by omega)
    simp only [find_closest_lab, if_neg hne]
    exact ih (fun j h1 h2 => h j h1 (by omega))

/-- One scanner step over a well-formed token: when the interior has no
delimiter characters, `find_mention` classifies exactly that interior
and resumes right after the closing `'>'`. -/
theorem find_mention_token {inner : List Char} (rest : List Char)
    (h : ∀ c ∈ inner, c ≠ '<' ∧ c ≠ '>') :
    find_mention ('<' :: inner ++ '>' :: rest) = ScanStep.advanced (new_mention inner) rest := by
  have hgt : strchr_gt ('<' :: inner ++ '>' :: rest) = some (inner.length + 1) := by
    have hnone : ∀ c ∈ '<' :: inner, c ≠ '>' := by
      intro c hc
      rcases List.mem_cons.mp hc with rfl | hc
      · decide
      · exact (h c hc).2
    simpa using strchr_gt_append rest hnone
  have hlab : find_closest_lab ('<' :: inner ++ '>' :: rest) (inner.length + 1) = some 0 := by
    have h0 : char_at ('<' :: inner ++ '>' :: rest) 0 = '<' := rfl
    apply find_closest_lab_zero h0
    intro j h1 h2
    obtain ⟨k, rfl⟩ : ∃ k, j = k + 1 := ⟨j - 1, by omega⟩
    show ('<' :: (inner ++ '>' :: rest)).getD (k + 1) nulChar ≠ '<'
    rw [List.getD_cons_succ]
    rcases Nat.lt_or_ge k inner.length with hk | hk
    · rw [List.getD_append _ _ _ _ hk]
      have hmem : inner.getD k nulChar ∈ inner := by
        rw [List.getD_eq_getElem inner nulChar hk]
        exact List.getElem_mem hk
      exact (h _ hmem).1
    · have hk2 : k = inner.length := by omega
      subst hk2
      rw [List.getD_append_right _ _ _ _ (le_refl _)]
      simp
  have hinner : inner_of ('<' :: inner ++ '>' :: rest) 0 (inner.length + 1) = inner := by
    show ((('<' :: inner ++ '>' :: rest)).drop 1).take (inner.length + 1 - 0 - 1) = inner
    have hd : ('<' :: inner ++ '>' :: rest).drop 1 = inner ++ '>' :: rest := rfl
    have hn : inner.length + 1 - 0 - 1 = inner.length := by omega
    rw [hd, hn]
    exact List.take_left inner ('>' :: rest)
  have hdrop : ('<' :: inner ++ '>' :: rest).drop (inner.length + 1 + 1) = rest := by
    show (inner ++ '>' :: rest).drop (inner.length + 1) = rest
    have ha : inner ++ '>' :: rest = (inner ++ ['>']) ++ rest := by simp
    have hl : inner.length + 1 = (inner ++ ['>']).length := by simp
    rw [ha, hl]
    exact List.drop_left _ _
  simp only [find_mention, hgt, hlab]
  rw [hinner, hdrop]

/-- Scanning a single well-formed token yields exactly the
classification of its interior. -/
theorem scan_single {inner : List Char} (h : ∀ c ∈ inner, c ≠ '<' ∧ c ≠ '>') :
    find_mentions ('<' :: inner ++ ['>']) = some (new_mention inner).toList := by
  rw [find_mentions]
  have hlen : ('<' :: inner ++ ['>']).length = inner.length + 2 := by simp
  rw [hlen]
  show find_mentions_fuel (inner.length + 1 + 1 + 1) ('<' :: inner ++ '>' :: []) [] = _
  simp only [find_mentions_fuel]
  rw [find_mention_token [] h]
  simp only [find_mentions_fuel, find_mention, strchr_gt, add_mention]
  simp

/-- Classification of a nickname-style user interior. -/
theorem new_mention_user_bang {d : List Char} (h : ∀ c ∈ d, is_ascii_digit c = true) :
    new_mention ('@' :: '!' :: d) = some ⟨MentionType.User, d⟩ := by
  have hd : ensure_int_str d = true := by
    rw [ensure_int_str_eq_all]
    exact List.all_eq_true.mpr h
  simp [new_mention, char_at, hd]

/-- Classification of a role interior. -/
theorem new_mention_role {d : List Char} (h : ∀ c ∈ d, is_ascii_digit c = true) :
    new_mention ('@' :: '&' :: d) = some ⟨MentionType.Role, d⟩ := by
  have hd : ensure_int_str d = true := by
    rw [ensure_int_str_eq_all]
    exact List.all_eq_true.mpr h
  simp [new_mention, char_at, hd]

/-- Classification of a plain user interior: a digit (or the terminator,
for the empty identifier) in second position selects neither the `'!'`
nor the `'&'` sub-branch. -/
theorem new_mention_user {d : List Char} (h : ∀ c ∈ d, is_ascii_digit c = true) :
    new_mention ('@' :: d) = some ⟨MentionType.User, d⟩ := by
  have hd : ensure_int_str d = true := by
    rw [ensure_int_str_eq_all]
    exact List.all_eq_true.mpr h
  have h1 : char_at ('@' :: d) 1 ≠ '!' ∧ char_at ('@' :: d) 1 ≠ '&' := by
    cases d with
    | nil => exact ⟨by decide, by decide⟩
    | cons c t => simpa [char_at] using digit_ne_markers (h c (by simp))
  rw [new_mention, if_pos (show char_at ('@' :: d) 0 = '@' from rfl), if_neg h1.1,
    if_neg h1.2, if_pos (show ensure_int_str (('@' :: d).drop 1) = true from hd)]
  rfl

/-- Classification of a channel interior. -/
theorem new_mention_channel {d : List Char} (h : ∀ c ∈ d, is_ascii_digit c = true) :
    new_mention ('#' :: d) = some ⟨MentionType.Channel, d⟩ := by
  have hd : ensure_int_str d = true := by
    rw [ensure_int_str_eq_all]
    exact List.all_eq_true.mpr h
  simp [new_mention, char_at, hd]

/-- Classification of an emoji interior: passed through verbatim, with
no digit validation. -/
theorem new_mention_emoji {inner : List Char}
    (h : char_at inner 0 = 'a' ∨ char_at inner 0 = ':') :
    new_mention inner = some ⟨MentionType.Emoji, inner⟩ := by
  have h0 : char_at inner 0 ≠ '@' := by rcases h with h | h <;> rw [h] <;> decide
  have h1 : char_at inner 0 ≠ '#' := by rcases h with h | h <;> rw [h] <;> decide
  rw [new_mention, if_neg h0, if_neg h1, if_pos h]

/-- Invariant of every record the scanner can produce: a non-emoji
identifier is all ASCII digits; an emoji identifier starts with `'a'` or
`':'` and contains no delimiter. -/
def good_record (r : MentionRecord) : Prop :=
  (r.kind ≠ MentionType.Emoji → ∀ c ∈ r.id, is_ascii_digit c = true) ∧
  (r.kind = MentionType.Emoji →
    (char_at r.id 0 = 'a' ∨ char_at r.id 0 = ':') ∧ ∀ c ∈ r.id, c ≠ '<' ∧ c ≠ '>')

/-- A record whose identifier passed `ensure_int_str` is good. -/
theorem good_record_digits {k : MentionType} {d : List Char} (hk : k ≠ MentionType.Emoji)
    (hd : ensure_int_str d = true) : good_record ⟨k, d⟩ := by
  constructor
  · intro _ c hc
    rw [ensure_int_str_eq_all] at hd
    exact List.all_eq_true.mp hd c hc
  · intro he
    exact absurd he hk

/-- Whatever record `new_mention` produces from a delimiter-free
interior is good. -/
theorem new_mention_good {inner : List Char} {r : MentionRecord}
    (hnd : ∀ c ∈ inner, c ≠ '<' ∧ c ≠ '>') (h : new_mention inner = some r) :
    good_record r := by
  rw [new_mention] at h
  split_ifs at h with hA hB hC1 hB2 hC2 hC3 hD hC4 hE
  · injection h with h
    rw [← h]
    exact good_record_digits (by decide) hC1
  · injection h with h
    rw [← h]
    exact good_record_digits (by decide) hC2
  · injection h with h
    rw [← h]
    exact good_record_digits (by decide) hC3
  · injection h with h
    rw [← h]
    exact good_record_digits (by decide) hC4
  · injection h with h
    rw [← h]
    constructor
    · intro hne
      exact absurd rfl hne
    · intro _
      exact ⟨hE, hnd⟩

/-- Every record in a completed scan's output is good. -/
theorem scan_good : ∀ f src acc rs, find_mentions_fuel f src acc = some rs →
    (∀ r ∈ acc, good_record r) → ∀ r ∈ rs, good_record r := by
  intro f
  induction f with
  | zero =>
    intro src acc rs h
    exact absurd h (by simp [find_mentions_fuel])
  | succ a ih =>
    intro src acc rs h hacc
    simp only [find_mentions_fuel] at h
    cases hm : find_mention src with
    | finished =>
      rw [hm] at h
      simp only [] at h
      injection h with h
      rw [← h]
      exact hacc
    | crashed =>
      rw [hm] at h
      exact Option.noConfusion h
    | advanced found rest =>
      rw [hm] at h
      refine ih rest (add_mention acc found) rs h ?_
      intro r hr
      simp only [add_mention] at hr
      rcases List.mem_append.mp hr with hr | hr
      · exact hacc r hr
      · obtain ⟨rab, lab, hrab, hlab, hf, hrest⟩ := find_mention_advanced hm
        cases found with
        | none => simp at hr
        | some r' =>
          have hrr : r = r' := by simpa using hr
          rw [hrr]
          exact new_mention_good (inner_no_delims hrab hlab) hf.symm

/-- A good record's identifier contains no delimiter character. -/
theorem good_no_delims {r : MentionRecord} (h : good_record r) :
    ∀ c ∈ r.id, c ≠ '<' ∧ c ≠ '>' := by
  by_cases hk : r.kind = MentionType.Emoji
  · exact (h.2 hk).2
  · intro c hc
    exact digit_ne_delims (h.1 hk c hc)

/-- The re-serialization markers contain no delimiter character. -/
theorem marker_no_delims (k : MentionType) : ∀ c ∈ kind_marker k, c ≠ '<' ∧ c ≠ '>' := by
  cases k <;> decide

/-- The body of a re-serialized good record contains no delimiter. -/
theorem good_body_no_delims {r : MentionRecord} (h : good_record r) :
    ∀ c ∈ kind_marker r.kind ++ r.id, c ≠ '<' ∧ c ≠ '>' := by
  intro c hc
  rcases List.mem_append.mp hc with hc | hc
  · exact marker_no_delims r.kind c hc
  · exact good_no_delims h c hc

/-- Re-classifying the serialized body of a good record restores the
record exactly. -/
theorem new_mention_serialize {r : MentionRecord} (h : good_record r) :
    new_mention (kind_marker r.kind ++ r.id) = some r := by
  obtain ⟨k, d⟩ := r
  cases k with
  | User =>
    have hne : MentionType.User ≠ MentionType.Emoji := by decide
    exact new_mention_user (h.1 hne)
  | Role =>
    have hne : MentionType.Role ≠ MentionType.Emoji := by decide
    exact new_mention_role (h.1 hne)
  | Channel =>
    have hne : MentionType.Channel ≠ MentionType.Emoji := by decide
    exact new_mention_channel (h.1 hne)
  | Emoji => exact new_mention_emoji (h.2 rfl).1

/-- Scanning the concatenation of re-serialized good records recovers
exactly those records, in order. -/
theorem scan_serialized : ∀ rs f acc, (∀ r ∈ rs, good_record r) →
    (serialize_all rs).length < f →
    find_mentions_fuel f (serialize_all rs) acc = some (acc ++ rs) := by
  intro rs
  induction rs with
  | nil =>
    intro f acc _ hf
    cases f with
    | zero => simp [serialize_all] at hf
    | succ a =>
      show find_mentions_fuel (a + 1) [] acc = some (acc ++ [])
      simp [find_mentions_fuel, find_mention, strchr_gt]
  | cons r rs ih =>
    intro f acc hgood hf
    have hgr : good_record r := hgood r (by simp)
    have hrest : ∀ x ∈ rs, good_record x := fun x hx => hgood x (by simp [hx])
    have hshape : serialize_all (r :: rs) =
        '<' :: (kind_marker r.kind ++ r.id) ++ '>' :: serialize_all rs := by
      simp [serialize_all, serialize_record, List.append_assoc]
    cases f with
    | zero => omega
    | succ a =>
      rw [hshape]
      simp only [find_mentions_fuel]
      rw [find_mention_token (serialize_all rs) (good_body_no_delims hgr)]
      rw [new_mention_serialize hgr]
      have hlen : (serialize_all rs).length < a := by
        rw [hshape] at hf
        simp only [List.length_cons, List.length_append] at hf
        omega
      have hrec := ih a (acc ++ [r]) hrest hlen
      simpa [add_mention, List.append_assoc] using hrec

/-- Each loop iteration consumes one `'>'` and appends at most one
record, so the output is no longer than the accumulator plus the number
of `'>'` characters left in the buffer. -/
theorem scan_length_le : ∀ f src acc rs, find_mentions_fuel f src acc = some rs →
    rs.length ≤ acc.length + src.count '>' := by
  intro f
  induction f with
  | zero =>
    intro src acc rs h
    exact absurd h (by simp [find_mentions_fuel])
  | succ a ih =>
    intro src acc rs h
    simp only [find_mentions_fuel] at h
    cases hm : find_mention src with
    | finished =>
      rw [hm] at h
      simp only [] at h
      injection h with h
      rw [← h]
      exact Nat.le_add_right _ _
    | crashed =>
      rw [hm] at h
      exact Option.noConfusion h
    | advanced found rest =>
      rw [hm] at h
      obtain ⟨rab, lab, hrab, hlab, hf, hrest⟩ := find_mention_advanced hm
      subst hrest
      have hrec := ih _ (add_mention acc found) rs h
      have hfl : (add_mention acc found).length ≤ acc.length + 1 := by
        simp only [add_mention, List.length_append]
        cases found <;> simp
      have hrabc := strchr_gt_char hrab
      have hrlen := strchr_gt_lt_length hrab
      have hcount : (src.drop (rab + 1)).count '>' + 1 ≤ src.count '>' := by
        conv_rhs => rw [← List.take_append_drop (rab + 1) src]
        rw [List.count_append]
        have hlt : rab < (src.take (rab + 1)).length := by
          simp only [List.length_take]
          omega
        have hmem : '>' ∈ src.take (rab + 1) := by
          rw [List.mem_iff_getElem]
          refine ⟨rab, hlt, ?_⟩
          rw [List.getElem_take, ← List.getD_eq_getElem src nulChar hrlen]
          exact hrabc
        have hpos : 0 < (src.take (rab + 1)).count '>' := List.count_pos_iff.mpr hmem
        omega
      omega

/-- C1: the spec's termination rule says that when a `'>'` has no `'<'`
in its window the scan stops and returns what was accumulated, so that
scanning "hello > <@123>" yields the empty sequence.  The code does
something else: `find_mention` has no `NULL` check after
`find_closest_lab` and calls `add_mention` with `lab == NULL`, whose
pointer arithmetic `rab - lab` and copy from `lab + 1` are undefined
behavior — modelled here as the `crashed` outcome, so the whole scan on
"hello > <@123>" is the abnormal `none`, not `some []`; the trailing
token alone would have scanned fine. -/
theorem unmatched_gt_reaches_null_lab :
    find_mention (chars "hello > <@123>") = ScanStep.crashed ∧
    find_mentions (chars "hello > <@123>") = none ∧
    find_mentions (chars "hello > <@123>") ≠ some [] ∧
    find_mentions (chars "<@123>") = some [⟨MentionType.User, chars "123"⟩] :=
  ⟨by decide, by decide, by decide, by decide⟩

/-- C2: the claim says `scan` is total and never raises on any input,
including unmatched delimiters.  The input ">" refutes this on the code:
its only `'>'` has no `'<'` in the window, `find_closest_lab` returns
`NULL`, and the unguarded `add_mention(mentions, NULL, rab)` call makes
the scan undefined behavior (a crash), modelled as `none`. -/
theorem scan_not_total_on_unmatched_gt :
    find_mention (chars ">") = ScanStep.crashed ∧
    find_mentions (chars ">") = none :=
  ⟨by decide, by decide⟩

/-- C3: digit validation accepts a candidate identifier exactly when
every character is an ASCII digit, the empty identifier is vacuously
valid, scanning "<@>" yields the single record `{User, ""}`, and a
non-digit character in the identifier yields no record. -/
theorem digit_validation_policy :
    (∀ s : List Char, ensure_int_str s = s.all is_ascii_digit) ∧
    ensure_int_str [] = true ∧
    find_mentions (chars "<@>") = some [⟨MentionType.User, []⟩] ∧
    find_mentions (chars "<@12x>") = some [] :=
  ⟨ensure_int_str_eq_all, by decide, by decide, by decide⟩

/-- C4: when a `'<'` is found for the current `'>'` but the interior
fails classification or validation, the step contributes no record and
the scan continues just past that `'>'`; in particular
"<@123> <bogus> <#456>" yields exactly the user and channel records. -/
theorem rejected_token_is_skipped :
    (∀ src rab lab, strchr_gt src = some rab → find_closest_lab src rab = some lab →
      new_mention (inner_of src lab rab) = none →
      find_mention src = ScanStep.advanced none (src.drop (rab + 1))) ∧
    find_mentions (chars "<@123> <bogus> <#456>") =
      some [⟨MentionType.User, chars "123"⟩, ⟨MentionType.Channel, chars "456"⟩] := by
  constructor
  · intro src rab lab h1 h2 h3
    simp only [find_mention, h1, h2, h3]
  · decide

/-- Witness for C4 at the concrete rejected token "<bogus>". -/
theorem rejected_token_is_skipped_witness :
    find_mention (chars "<bogus> <#456>") =
      ScanStep.advanced none ((chars "<bogus> <#456>").drop 7) :=
  rejected_token_is_skipped.1 (chars "<bogus> <#456>") 6 0 (by decide) (by decide) (by decide)

/-- C5: records are only ever appended at the tail of the sequence
(running the loop with accumulator `acc` prepends `acc` to the result
of running it empty), and a multi-token input lists its records in
left-to-right text order. -/
theorem output_order_append_only :
    (∀ f src acc, find_mentions_fuel f src acc =
      (find_mentions_fuel f src []).map (fun rs => acc ++ rs)) ∧
    find_mentions (chars "<@1> <#2> <@&3>") =
      some [⟨MentionType.User, chars "1"⟩, ⟨MentionType.Channel, chars "2"⟩,
        ⟨MentionType.Role, chars "3"⟩] :=
  ⟨find_mentions_fuel_append, by decide⟩

/-- C6: for every digit string `d`, the nickname-style token `<@!d>` and
the plain token `<@d>` scan to the same single record `{User, d}`. -/
theorem nickname_user_normalization :
    ∀ d : List Char, (∀ c ∈ d, is_ascii_digit c = true) →
      find_mentions ('<' :: '@' :: '!' :: (d ++ ['>'])) = some [⟨MentionType.User, d⟩] ∧
      find_mentions ('<' :: '@' :: (d ++ ['>'])) = some [⟨MentionType.User, d⟩] := by
  intro d hd
  have hnd : ∀ c ∈ d, c ≠ '<' ∧ c ≠ '>' := fun c hc => digit_ne_delims (hd c hc)
  constructor
  · have hnd2 : ∀ c ∈ '@' :: '!' :: d, c ≠ '<' ∧ c ≠ '>' := by
      intro c hc
      rcases List.mem_cons.mp hc with rfl | hc
      · exact ⟨by decide, by decide⟩
      rcases List.mem_cons.mp hc with rfl | hc
      · exact ⟨by decide, by decide⟩
      · exact hnd c hc
    have hs := scan_single hnd2
    rw [new_mention_user_bang hd] at hs
    simpa using hs
  · have hnd2 : ∀ c ∈ '@' :: d, c ≠ '<' ∧ c ≠ '>' := by
      intro c hc
      rcases List.mem_cons.mp hc with rfl | hc
      · exact ⟨by decide, by decide⟩
      · exact hnd c hc
    have hs := scan_single hnd2
    rw [new_mention_user hd] at hs
    simpa using hs

/-- Witness for C6 at the digit string "42". -/
theorem nickname_user_normalization_witness :
    find_mentions ('<' :: '@' :: '!' :: (chars "42" ++ ['>'])) =
      some [⟨MentionType.User, chars "42"⟩] ∧
    find_mentions ('<' :: '@' :: (chars "42" ++ ['>'])) =
      some [⟨MentionType.User, chars "42"⟩] :=
  nickname_user_normalization (chars "42") (by decide)

/-- C7: `@&`-interiors with digit tails classify as `Role` with the tail
as identifier, `#`-interiors as `Channel`, and any interior whose first
character is `'a'` or `':'` classifies as `Emoji` carrying the whole
interior verbatim with no digit validation; the four cited tokens scan
accordingly. -/
theorem marker_classification :
    (∀ d : List Char, (∀ c ∈ d, is_ascii_digit c = true) →
      new_mention ('@' :: '&' :: d) = some ⟨MentionType.Role, d⟩ ∧
      new_mention ('#' :: d) = some ⟨MentionType.Channel, d⟩) ∧
    (∀ inner : List Char, char_at inner 0 = 'a' ∨ char_at inner 0 = ':' →
      new_mention inner = some ⟨MentionType.Emoji, inner⟩) ∧
    find_mentions (chars "<@&7>") = some [⟨MentionType.Role, chars "7"⟩] ∧
    find_mentions (chars "<#8>") = some [⟨MentionType.Channel, chars "8"⟩] ∧
    find_mentions (chars "<a:blob:99>") = some [⟨MentionType.Emoji, chars "a:blob:99"⟩] ∧
    find_mentions (chars "<:blob:99>") = some [⟨MentionType.Emoji, chars ":blob:99"⟩] :=
  ⟨fun d hd => ⟨new_mention_role hd, new_mention_channel hd⟩,
    fun i hi => new_mention_emoji hi, by decide, by decide, by decide, by decide⟩

/-- Witness for C7 at concrete interiors. -/
theorem marker_classification_witness :
    new_mention ('@' :: '&' :: chars "7") = some ⟨MentionType.Role, chars "7"⟩ ∧
    new_mention ('#' :: chars "8") = some ⟨MentionType.Channel, chars "8"⟩ ∧
    new_mention (chars "a:z") = some ⟨MentionType.Emoji, chars "a:z"⟩ :=
  ⟨(marker_classification.1 (chars "7") (by decide)).1,
    (marker_classification.1 (chars "8") (by decide)).2,
    marker_classification.2.1 (chars "a:z") (by decide)⟩

/-- C8: re-serializing every record of a completed scan as
`<marker + id>` and scanning the concatenation reproduces exactly the
same record sequence. -/
theorem roundtrip_reserialize :
    ∀ src rs, find_mentions src = some rs → find_mentions (serialize_all rs) = some rs := by
  intro src rs h
  have hgood : ∀ r ∈ rs, good_record r := scan_good _ _ _ _ h (by simp)
  have hs := scan_serialized rs ((serialize_all rs).length + 1) [] hgood (by omega)
  simpa [find_mentions] using hs

/-- Witness for C8 on a two-record scan. -/
theorem roundtrip_reserialize_witness :
    find_mentions (serialize_all
      [⟨MentionType.User, chars "123"⟩, ⟨MentionType.Channel, chars "456"⟩]) =
      some [⟨MentionType.User, chars "123"⟩, ⟨MentionType.Channel, chars "456"⟩] :=
  roundtrip_reserialize (chars "<@123> <#456>") _ (by decide)

/-- C9: no identifier in any returned sequence contains a delimiter
character, since interiors are taken strictly between the nearest `'<'`
and the first `'>'`. -/
theorem ids_delimiter_free :
    ∀ src rs, find_mentions src = some rs → ∀ r ∈ rs, '<' ∉ r.id ∧ '>' ∉ r.id := by
  intro src rs h r hr
  have hgood := scan_good _ _ _ _ h (by simp) r hr
  have hnd := good_no_delims hgood
  constructor
  · intro hmem
    exact (hnd '<' hmem).1 rfl
  · intro hmem
    exact (hnd '>' hmem).2 rfl

/-- Witness for C9 on a concrete emoji record. -/
theorem ids_delimiter_free_witness :
    '<' ∉ chars "a:blob:99" ∧ '>' ∉ chars "a:blob:99" :=
  ids_delimiter_free (chars "<a:blob:99>") [⟨MentionType.Emoji, chars "a:blob:99"⟩]
    (by decide) ⟨MentionType.Emoji, chars "a:blob:99"⟩ (by decide)

/-- C10: each iteration consumes one `'>'` and appends at most one
record, so the output length is bounded by the number of `'>'`
characters in the input, and the empty input scans to the empty
sequence. -/
theorem output_length_le_gt_count :
    (∀ src rs, find_mentions src = some rs → rs.length ≤ src.count '>') ∧
    find_mentions ([] : List Char) = some [] := by
  constructor
  · intro src rs h
    have hb := scan_length_le _ _ _ _ h
    simpa using hb
  · decide

/-- Witness for C10 on a two-token input. -/
theorem output_length_le_gt_count_witness :
    ([⟨MentionType.User, chars "1"⟩, ⟨MentionType.Channel, chars "2"⟩] :
      List MentionRecord).length ≤ (chars "<@1><#2>").count '>' :=
  output_length_le_gt_count.1 (chars "<@1><#2>") _ (by decide)

end ParseMentions
